import Mathlib

set_option autoImplicit false

/-!
Verification of the phrase-trie lexicon annotator in
`src/microservices/specialist_lexicon/build_spcialist_lexicon.py`.

The development shallowly embeds the two classes of the source file that the
claims are about:

* `TokenDictionary` — the token interner (a `dict` subclass holding the
  forward mapping `entries`, the reverse list `dic_list`, and the counter
  `next_index`);
* the trie-node class — embedded as the inductive `Trie`; a node owns
  `children_tries` (a mapping from token id to child node) and `tags`
  (a mapping from tag key to tag value).

Python dictionaries are embedded as association lists with unique keys;
dictionary assignment replaces the value at an existing key in place and
otherwise appends, and `pop` removes the key's entry.  The source's parent
back-references are used only by `_get_top()` to reach the root node and the
shared interner; the embedding therefore passes the root node and the
interner explicitly to every traversal.  Mutation is embedded as state
passing: operations that mutate the dictionary or the trie return the new
value.
-/

/-- Tag maps: Python `dict` of tag key to tag value, as an association list. -/
abbrev Tags := List (String × String)

/-- The token interner (`TokenDictionary.__init__`): the inherited `dict`
(token to id) is `entries`, the reverse list is `dic_list`, and the
next-free-id counter is `next_index`. -/
structure TokenDictionary where
  entries : List (String × Nat)
  dic_list : List String
  next_index : Nat

/-- Python `self.get(token, None)` on the inherited `dict`: a pure, read-only
lookup (`None` when the token is unknown). -/
def TokenDictionary.get? (d : TokenDictionary) (token : String) : Option Nat :=
  d.entries.lookup token

/-- `TokenDictionary.__setitem__(self, token, value=None)`: if the token is
already present, return immediately; otherwise record `token ↦ next_index`,
append the token to `dic_list`, and bump `next_index`.  The supplied `value`
is never read by the body. -/
def TokenDictionary.setitem {α : Type} (d : TokenDictionary) (token : String)
    (value : α) : TokenDictionary :=
  if (d.get? token).isSome then d
  else ⟨d.entries ++ [(token, d.next_index)], d.dic_list ++ [token], d.next_index + 1⟩

/-- `TokenDictionary.add_tokens`: `__setitem__` on each token in order (the
`value` argument takes its default, modeled by `()`). -/
def TokenDictionary.add_tokens (d : TokenDictionary) (tokens : List String) :
    TokenDictionary :=
  tokens.foldl (fun d tok => d.setitem tok ()) d

/-- `TokenDictionary.get_or_add_token_dic`: insert the token if absent, then
return its id (the indexing `self[token]` cannot miss at that point; the
`getD 0` default is unreachable). -/
def TokenDictionary.get_or_add_token_dic (d : TokenDictionary) (token : String) :
    Nat × TokenDictionary :=
  let d' := if (d.get? token).isSome then d else d.setitem token ()
  ((d'.get? token).getD 0, d')

/-- A trie node: `children_tries` maps a token id to the child node, `tags`
is the node's tag map.  The `parent` back-reference of the source is not part
of the state; it is used only to reach the root, which the embedding passes
explicitly. -/
inductive Trie where
  | mk (children_tries : List (Nat × Trie)) (tags : Tags)

/-- The `children_tries` field of a node. -/
def Trie.children : Trie → List (Nat × Trie)
  | .mk c _ => c

/-- The `tags` field of a node. -/
def Trie.tags : Trie → Tags
  | .mk _ g => g

/-- Python `token_dic_id in self.children_tries` followed by the indexing
`self.children_tries[token_dic_id]`: the id is `None` for an unknown token
and `None` is never a key of the children mapping. -/
def lookupChild (t : Trie) : Option Nat → Option Trie
  | none => none
  | some i => t.children.lookup i

/-- Dictionary assignment `children_tries[i] = c`: replace in place at an
existing key, otherwise append. -/
def setChild (cs : List (Nat × Trie)) (i : Nat) (c : Trie) : List (Nat × Trie) :=
  match cs with
  | [] => [(i, c)]
  | p :: rest => if p.1 = i then (i, c) :: rest else p :: setChild rest i c

/-- Dictionary assignment `self.tags[key] = value`. -/
def setTag (m : Tags) (k v : String) : Tags :=
  match m with
  | [] => [(k, v)]
  | p :: rest => if p.1 = k then (k, v) :: rest else p :: setTag rest k v

/-- `self.tags.pop(key)` (called only when the key is present; on an
association list it removes the first entry with that key). -/
def eraseTag (m : Tags) (k : String) : Tags :=
  match m with
  | [] => []
  | p :: rest => if p.1 = k then rest else p :: eraseTag rest k

/-- `_update_tags`: fold over the supplied pairs; a `None` value (`none`)
removes the key (the source guards the `pop` with a membership test, which on
an absent key makes the step a no-op, as does `eraseTag`), any other value
overwrites. -/
def updateTags (tags : Tags) (new_tags : List (String × Option String)) : Tags :=
  new_tags.foldl
    (fun m kv =>
      match kv.2 with
      | none => eraseTag m kv.1
      | some v => setTag m kv.1 v)
    tags

/-- `_add_next_tokens` (together with the inlined `_add_next_token`): walk or
lazily create one child per token, then merge the tags at the terminal node.
A `tags` argument of `None` defaults to the empty dict, which the caller
models by passing `[]` (`updateTags m [] = m`, exactly as in the source). -/
def addNextTokens (td : TokenDictionary) (t : Trie) (tokens : List String)
    (tags : List (String × Option String)) : TokenDictionary × Trie :=
  match tokens with
  | [] => (td, Trie.mk t.children (updateTags t.tags tags))
  | tok :: rest =>
    let r := td.get_or_add_token_dic tok
    let child := (lookupChild t (some r.1)).getD (Trie.mk [] [])
    let rc := addNextTokens r.2 child rest tags
    (rc.1, Trie.mk (setChild t.children r.1 rc.2) t.tags)

/-- Whitespace splitting of Python `str.split()` with no arguments: split on
runs of whitespace, producing no empty tokens.  Defined structurally over the
character list of the string. -/
def splitWsAux : List Char → List Char → List (List Char)
  | [], acc => if acc = [] then [] else [acc.reverse]
  | c :: cs, acc =>
    if c.isWhitespace then
      if acc = [] then splitWsAux cs [] else acc.reverse :: splitWsAux cs []
    else splitWsAux cs (c :: acc)

/-- `[token.lower() for token in words.split()]`: tokenize on whitespace,
then lowercase each token. -/
def normalizeWords (words : String) : List String :=
  (splitWsAux words.data []).map fun w => String.mk (w.map Char.toLower)

/-- `build_trie`: normalize the phrase and insert it.  The state is the pair
of the shared interner and the root node. -/
def buildTrie (s : TokenDictionary × Trie) (words : String)
    (tags : List (String × Option String)) : TokenDictionary × Trie :=
  addNextTokens s.1 s.2 (normalizeWords words) tags

/-- A freshly constructed root node (`parent=None`): empty interner, no
children, no tags. -/
def initState : TokenDictionary × Trie := (⟨[], [], 0⟩, Trie.mk [] [])

/-- A trie built by a sequence of `build_trie` calls on a fresh root. -/
def buildAll (phrases : List (String × List (String × Option String))) :
    TokenDictionary × Trie :=
  phrases.foldl (fun s pw => buildTrie s pw.1 pw.2) initState

/-- Python `' '.join`. -/
def joinSpace : List String → String
  | [] => ""
  | [x] => x
  | x :: xs => x ++ " " ++ joinSpace xs

mutual

/-- `_get_tries(self, tokens, start_idx, idx)`: extend the current match one
token at a time.  At the end of input, emit `tokens[start_idx:]` with the
current node's tags.  On a failing edge, emit `tokens[start_idx:idx]` with
the current node's tags and continue with `self._parse_tokens(tokens, idx)` —
note: on `self`, the node where extension stopped, not on the root.
`tokens[idx]` is `tokens.getD idx ""` (the branch guard makes the index
in-bounds, so the default is unreachable). -/
def getTries (td : TokenDictionary) (root self : Trie) (tokens : List String)
    (start_idx idx : Nat) : List (String × Tags) :=
  if _h : idx < tokens.length then
    match lookupChild self (td.get? (tokens.getD idx "")) with
    | some child => getTries td root child tokens start_idx (idx + 1)
    | none =>
        (joinSpace ((tokens.drop start_idx).take (idx - start_idx)), self.tags)
          :: parseTokens td root self tokens idx
  else
    [(joinSpace (tokens.drop start_idx), self.tags)]
termination_by 2 * (tokens.length - idx) + 1

/-- `_parse_tokens(self, tokens, idx)`: at the end of input return `[]`; if
`tokens[idx]` resolves to a child edge of `self`, extend via `_get_tries`;
otherwise emit the single token with an empty tag map and restart at the root
(`self._get_top()`, modeled by the explicitly passed `root`) from `idx + 1`. -/
def parseTokens (td : TokenDictionary) (root self : Trie) (tokens : List String)
    (idx : Nat) : List (String × Tags) :=
  if _h : idx < tokens.length then
    match lookupChild self (td.get? (tokens.getD idx "")) with
    | some child => getTries td root child tokens idx (idx + 1)
    | none => (tokens.getD idx "", []) :: parseTokens td root root tokens (idx + 1)
  else
    []
termination_by 2 * (tokens.length - idx)

end

/-- `parse_words`: normalize the input and parse from index 0, starting at
the root (`parse_words` is called on the root node). -/
def parse_words (s : TokenDictionary × Trie) (words : String) : List (String × Tags) :=
  parseTokens s.1 s.2 s.2 (normalizeWords words) 0

/-!
Observation functions used only to state the claims.  They are read-only
accessors derived from the data model, not re-implementations of source
operations.
-/

/-- Follow the trie path spelled by a token list (each token resolved through
the interner, exactly as an edge lookup during parsing); `none` when the path
does not exist. -/
def findNode (td : TokenDictionary) : Trie → List String → Option Trie
  | t, [] => some t
  | t, tok :: rest =>
    match lookupChild t (td.get? tok) with
    | some c => findNode td c rest
    | none => none

/-- The tag map of the node at a path, `[]` when the path does not exist. -/
def tagsAtD (td : TokenDictionary) (t : Trie) (ts : List String) : Tags :=
  match findNode td t ts with
  | some n => n.tags
  | none => []

/-- The number of tokens by which a match starting at `self` can be extended
from position `idx` (greedy: stop at the first failing edge). -/
def matchLen (td : TokenDictionary) (self : Trie) (tokens : List String)
    (idx : Nat) : Nat :=
  if _h : idx < tokens.length then
    match lookupChild self (td.get? (tokens.getD idx "")) with
    | some child => matchLen td child tokens (idx + 1) + 1
    | none => 0
  else 0
termination_by tokens.length - idx

/-- The node at which greedy extension starting at `self` from position `idx`
stops. -/
def walkNode (td : TokenDictionary) (self : Trie) (tokens : List String)
    (idx : Nat) : Trie :=
  if _h : idx < tokens.length then
    match lookupChild self (td.get? (tokens.getD idx "")) with
    | some child => walkNode td child tokens (idx + 1)
    | none => self
  else self
termination_by tokens.length - idx

/-- All edge keys in a trie (recursively) are below `n`; during building,
`n` is the interner's `next_index`, so a freshly allocated id is never
already an edge. -/
inductive Bounded : Trie → Nat → Prop where
  | mk : ∀ (cs : List (Nat × Trie)) (tags : Tags) (n : Nat),
      (∀ p ∈ cs, p.1 < n) → (∀ p ∈ cs, Bounded p.2 n) →
      Bounded (Trie.mk cs tags) n

/-- Interner well-formedness: ids are exactly `0, 1, …, next_index - 1` in
insertion order, and the reverse list has length `next_index`. -/
def WFdict (d : TokenDictionary) : Prop :=
  d.entries.map Prod.snd = List.range d.next_index ∧
    d.dic_list.length = d.next_index

/-!
Unfolding lemmas for the well-founded recursions, one per branch of each
source function.
-/

theorem parseTokens_stop (td : TokenDictionary) (root self : Trie)
    (tokens : List String) (idx : Nat) (h : ¬ idx < tokens.length) :
    parseTokens td root self tokens idx = [] := by
  rw [parseTokens, dif_neg h]

theorem parseTokens_match (td : TokenDictionary) (root self child : Trie)
    (tokens : List String) (idx : Nat) (h : idx < tokens.length)
    (hc : lookupChild self (td.get? (tokens.getD idx "")) = some child) :
    parseTokens td root self tokens idx = getTries td root child tokens idx (idx + 1) := by
  rw [parseTokens, dif_pos h, hc]

theorem parseTokens_fail (td : TokenDictionary) (root self : Trie)
    (tokens : List String) (idx : Nat) (h : idx < tokens.length)
    (hc : lookupChild self (td.get? (tokens.getD idx "")) = none) :
    parseTokens td root self tokens idx
      = (tokens.getD idx "", []) :: parseTokens td root root tokens (idx + 1) := by
  rw [parseTokens, dif_pos h, hc]

theorem getTries_end (td : TokenDictionary) (root self : Trie)
    (tokens : List String) (start_idx idx : Nat) (h : ¬ idx < tokens.length) :
    getTries td root self tokens start_idx idx
      = [(joinSpace (tokens.drop start_idx), self.tags)] := by
  rw [getTries, dif_neg h]

theorem getTries_step (td : TokenDictionary) (root self child : Trie)
    (tokens : List String) (start_idx idx : Nat) (h : idx < tokens.length)
    (hc : lookupChild self (td.get? (tokens.getD idx "")) = some child) :
    getTries td root self tokens start_idx idx
      = getTries td root child tokens start_idx (idx + 1) := by
  rw [getTries, dif_pos h, hc]

theorem getTries_fail (td : TokenDictionary) (root self : Trie)
    (tokens : List String) (start_idx idx : Nat) (h : idx < tokens.length)
    (hc : lookupChild self (td.get? (tokens.getD idx "")) = none) :
    getTries td root self tokens start_idx idx
      = (joinSpace ((tokens.drop start_idx).take (idx - start_idx)), self.tags)
          :: parseTokens td root self tokens idx := by
  rw [getTries, dif_pos h, hc]

theorem matchLen_end (td : TokenDictionary) (self : Trie) (tokens : List String)
    (idx : Nat) (h : ¬ idx < tokens.length) : matchLen td self tokens idx = 0 := by
  rw [matchLen, dif_neg h]

theorem matchLen_step (td : TokenDictionary) (self child : Trie)
    (tokens : List String) (idx : Nat) (h : idx < tokens.length)
    (hc : lookupChild self (td.get? (tokens.getD idx "")) = some child) :
    matchLen td self tokens idx = matchLen td child tokens (idx + 1) + 1 := by
  rw [matchLen, dif_pos h, hc]

theorem matchLen_fail (td : TokenDictionary) (self : Trie) (tokens : List String)
    (idx : Nat) (h : idx < tokens.length)
    (hc : lookupChild self (td.get? (tokens.getD idx "")) = none) :
    matchLen td self tokens idx = 0 := by
  rw [matchLen, dif_pos h, hc]

theorem walkNode_end (td : TokenDictionary) (self : Trie) (tokens : List String)
    (idx : Nat) (h : ¬ idx < tokens.length) : walkNode td self tokens idx = self := by
  rw [walkNode, dif_neg h]

theorem walkNode_step (td : TokenDictionary) (self child : Trie)
    (tokens : List String) (idx : Nat) (h : idx < tokens.length)
    (hc : lookupChild self (td.get? (tokens.getD idx "")) = some child) :
    walkNode td self tokens idx = walkNode td child tokens (idx + 1) := by
  rw [walkNode, dif_pos h, hc]

theorem walkNode_fail (td : TokenDictionary) (self : Trie) (tokens : List String)
    (idx : Nat) (h : idx < tokens.length)
    (hc : lookupChild self (td.get? (tokens.getD idx "")) = none) :
    walkNode td self tokens idx = self := by
  rw [walkNode, dif_pos h, hc]

/-! Elementary facts about association-list lookup and `joinSpace`. -/

theorem lookup_cons_self {α β : Type} [BEq α] [LawfulBEq α] (k : α) (v : β)
    (l : List (α × β)) : ((k, v) :: l).lookup k = some v := by
  simp [List.lookup]

theorem lookup_cons_ne {α β : Type} [BEq α] [LawfulBEq α] (p : α × β)
    (l : List (α × β)) (k : α) (h : k ≠ p.1) : (p :: l).lookup k = l.lookup k := by
  obtain ⟨k1, v1⟩ := p
  simp only [List.lookup]
  rw [show (k == k1) = false from beq_eq_false_iff_ne.mpr h]

theorem joinSpace_cons_of_ne_nil (x : String) (xs : List String) (h : xs ≠ []) :
    joinSpace (x :: xs) = x ++ " " ++ joinSpace xs := by
  cases xs with
  | nil => exact absurd rfl h
  | cons y ys => rfl

theorem joinSpace_append (l1 l2 : List String) (h1 : l1 ≠ []) (h2 : l2 ≠ []) :
    joinSpace (l1 ++ l2) = joinSpace l1 ++ " " ++ joinSpace l2 := by
  induction l1 with
  | nil => exact absurd rfl h1
  | cons x xs ih =>
    cases xs with
    | nil =>
      rw [List.singleton_append, joinSpace_cons_of_ne_nil x l2 h2]
      rfl
    | cons y ys =>
      rw [List.cons_append,
        joinSpace_cons_of_ne_nil x ((y :: ys) ++ l2) (by simp),
        joinSpace_cons_of_ne_nil x (y :: ys) (by simp),
        ih (by simp)]
      simp [String.append_assoc]

theorem joinSpace_map_flatten (parts : List (List String))
    (h : ∀ p ∈ parts, p ≠ []) :
    joinSpace (parts.map joinSpace) = joinSpace parts.flatten := by
  induction parts with
  | nil => rfl
  | cons p ps ih =>
    by_cases hps : ps = []
    · subst hps
      simp [joinSpace]
    · have hpflat : ps.flatten ≠ [] := by
        cases ps with
        | nil => exact absurd rfl hps
        | cons q qs =>
          have hq : q ≠ [] := h q (by simp)
          simp only [List.flatten_cons, ne_eq, List.append_eq_nil]
          intro hcontra
          exact hq hcontra.1
      have hmap : ps.map joinSpace ≠ [] := by
        simpa using hps
      rw [List.map_cons, joinSpace_cons_of_ne_nil _ _ hmap,
        ih (fun q hq => h q (List.mem_cons_of_mem _ hq)),
        List.flatten_cons,
        joinSpace_append p ps.flatten (h p (by simp)) hpflat]

/-! Elementary facts about the interner. -/

theorem lookup_append_right {β : Type} (l : List (String × β)) (k : String) (v : β)
    (h : l.lookup k = none) : (l ++ [(k, v)]).lookup k = some v := by
  induction l with
  | nil => exact lookup_cons_self k v []
  | cons p rest ih =>
    obtain ⟨k1, v1⟩ := p
    by_cases hk : k = k1
    · subst hk
      rw [lookup_cons_self] at h
      exact absurd h (by simp)
    · have hk' : k ≠ (k1, v1).1 := by simpa using hk
      rw [List.cons_append, lookup_cons_ne (k1, v1) _ k hk']
      rw [lookup_cons_ne (k1, v1) rest k hk'] at h
      exact ih h

theorem lookup_append_other {β : Type} (l : List (String × β)) (k k' : String) (v : β)
    (h : k' ≠ k) : (l ++ [(k, v)]).lookup k' = l.lookup k' := by
  induction l with
  | nil =>
    simp only [List.nil_append, List.lookup]
    rw [show (k' == k) = false from beq_eq_false_iff_ne.mpr h]
  | cons p rest ih =>
    by_cases hk : k' = p.1
    · obtain ⟨k1, v1⟩ := p
      simp only at hk
      subst hk
      rw [List.cons_append, lookup_cons_self, lookup_cons_self]
    · rw [List.cons_append, lookup_cons_ne p _ k' hk, lookup_cons_ne p rest k' hk]
      exact ih

/-- `setitem` on a present token is a complete no-op. -/
theorem setitem_present {α : Type} (d : TokenDictionary) (token : String) (v : α)
    (h : (d.get? token).isSome) : d.setitem token v = d := by
  rw [TokenDictionary.setitem, if_pos h]

/-- `setitem` on an absent token records `next_index` as its id. -/
theorem setitem_absent_get {α : Type} (d : TokenDictionary) (token : String) (v : α)
    (h : d.get? token = none) :
    (d.setitem token v).get? token = some d.next_index := by
  rw [TokenDictionary.setitem, if_neg (by simp [h])]
  exact lookup_append_right d.entries token d.next_index h

/-- `setitem` leaves the id of every other token unchanged. -/
theorem setitem_get_other {α : Type} (d : TokenDictionary) (token other : String)
    (v : α) (h : other ≠ token) :
    (d.setitem token v).get? other = d.get? other := by
  rw [TokenDictionary.setitem]
  by_cases hp : (d.get? token).isSome
  · rw [if_pos hp]
  · rw [if_neg hp]
    exact lookup_append_other d.entries token other d.next_index h

/-- `setitem` never loses an existing binding. -/
theorem setitem_get_mono {α : Type} (d : TokenDictionary) (token other : String)
    (v : α) (i : Nat) (h : d.get? other = some i) :
    (d.setitem token v).get? other = some i := by
  by_cases he : other = token
  · subst he
    rw [setitem_present d other v (by simp [h])]
    exact h
  · rw [setitem_get_other d token other v he]
    exact h

/-!
Span coverage.  The joint induction below characterizes the spans emitted by
`_parse_tokens` / `_get_tries`: the emitted span texts are the `' '.join`s of
a partition of the remaining tokens into non-empty consecutive groups.
-/

theorem cover_stop (td : TokenDictionary) (root : Trie) (tokens : List String)
    (idx : Nat) (h : ¬ idx < tokens.length) :
    (∀ self : Trie, ∃ parts : List (List String),
        parts.flatten = tokens.drop idx ∧ (∀ p ∈ parts, p ≠ []) ∧
        (parseTokens td root self tokens idx).map Prod.fst = parts.map joinSpace) ∧
    (∀ (self : Trie) (start : Nat), start < idx → start < tokens.length →
        ∃ parts : List (List String),
          parts.flatten = tokens.drop start ∧ (∀ p ∈ parts, p ≠ []) ∧
          (getTries td root self tokens start idx).map Prod.fst
            = parts.map joinSpace) := by
  constructor
  · intro self
    refine ⟨[], ?_, by simp, ?_⟩
    · rw [List.flatten_nil, eq_comm, List.drop_eq_nil_iff]
      omega
    · rw [parseTokens_stop td root self tokens idx h]
      simp
  · intro self start _hsi hsl
    refine ⟨[tokens.drop start], by simp, ?_, ?_⟩
    · intro p hp
      rw [List.mem_singleton] at hp
      subst hp
      rw [ne_eq, List.drop_eq_nil_iff]
      omega
    · rw [getTries_end td root self tokens start idx h]
      simp

theorem cover_aux (td : TokenDictionary) (root : Trie) :
    ∀ (n : Nat) (tokens : List String) (idx : Nat), tokens.length - idx ≤ n →
    (∀ self : Trie, ∃ parts : List (List String),
        parts.flatten = tokens.drop idx ∧ (∀ p ∈ parts, p ≠ []) ∧
        (parseTokens td root self tokens idx).map Prod.fst = parts.map joinSpace) ∧
    (∀ (self : Trie) (start : Nat), start < idx → start < tokens.length →
        ∃ parts : List (List String),
          parts.flatten = tokens.drop start ∧ (∀ p ∈ parts, p ≠ []) ∧
          (getTries td root self tokens start idx).map Prod.fst
            = parts.map joinSpace) := by
  intro n
  induction n with
  | zero =>
    intro tokens idx hle
    exact cover_stop td root tokens idx (by omega)
  | succ n ih =>
    intro tokens idx hle
    by_cases hidx : idx < tokens.length
    · have ihx := ih tokens (idx + 1) (by omega)
      have hparse : ∀ self : Trie, ∃ parts : List (List String),
          parts.flatten = tokens.drop idx ∧ (∀ p ∈ parts, p ≠ []) ∧
          (parseTokens td root self tokens idx).map Prod.fst
            = parts.map joinSpace := by
        intro self
        cases hc : lookupChild self (td.get? (tokens.getD idx "")) with
        | some child =>
          obtain ⟨parts, hflat, hne, hmap⟩ := ihx.2 child idx (by omega) (by omega)
          exact ⟨parts, hflat, hne, by
            rw [parseTokens_match td root self child tokens idx hidx hc]
            exact hmap⟩
        | none =>
          obtain ⟨parts, hflat, hne, hmap⟩ := ihx.1 root
          refine ⟨[tokens.getD idx ""] :: parts, ?_, ?_, ?_⟩
          · rw [List.flatten_cons, hflat, List.singleton_append,
              List.getD_eq_getElem tokens "" hidx]
            exact (List.drop_eq_getElem_cons hidx).symm
          · intro p hp
            rcases List.mem_cons.mp hp with h1 | h2
            · subst h1; simp
            · exact hne p h2
          · rw [parseTokens_fail td root self tokens idx hidx hc]
            simp only [List.map_cons, hmap, joinSpace]
      refine ⟨hparse, ?_⟩
      intro self start hsi hsl
      cases hc : lookupChild self (td.get? (tokens.getD idx "")) with
      | some child =>
        obtain ⟨parts, hflat, hne, hmap⟩ := ihx.2 child start (by omega) hsl
        exact ⟨parts, hflat, hne, by
          rw [getTries_step td root self child tokens start idx hidx hc]
          exact hmap⟩
      | none =>
        obtain ⟨parts, hflat, hne, hmap⟩ := hparse self
        refine ⟨(tokens.drop start).take (idx - start) :: parts, ?_, ?_, ?_⟩
        · rw [List.flatten_cons, hflat]
          have hdd : tokens.drop idx = (tokens.drop start).drop (idx - start) := by
            rw [List.drop_drop]
            congr 1
            omega
          rw [hdd, List.take_append_drop]
        · intro p hp
          rcases List.mem_cons.mp hp with h1 | h2
          · subst h1
            have hlen : 0 < ((tokens.drop start).take (idx - start)).length := by
              rw [List.length_take, List.length_drop]
              omega
            exact List.ne_nil_of_length_pos hlen
          · exact hne p h2
        · rw [getTries_fail td root self tokens start idx hidx hc]
          simp only [List.map_cons, hmap]
    · exact cover_stop td root tokens idx hidx

theorem length_le_length_flatten (parts : List (List String))
    (h : ∀ p ∈ parts, p ≠ []) : parts.length ≤ parts.flatten.length := by
  induction parts with
  | nil => simp
  | cons p ps ih =>
    rw [List.flatten_cons, List.length_cons, List.length_append]
    have hp : 0 < p.length :=
      List.length_pos_of_ne_nil (h p (by simp))
    have := ih (fun q hq => h q (List.mem_cons_of_mem _ hq))
    omega

/-- C3: for every built trie and every input string, the span texts of
`parse_words`, in output order, are the `' '.join`s of a partition of the
normalized token sequence into non-empty consecutive groups (so every input
token lands in exactly one span), and joining the span texts with single
spaces reproduces the lowercased, whitespace-normalized input exactly. -/
theorem C3_span_coverage (phrases : List (String × List (String × Option String)))
    (w : String) :
    (∃ parts : List (List String),
        parts.flatten = normalizeWords w ∧ (∀ p ∈ parts, p ≠ []) ∧
        (parse_words (buildAll phrases) w).map Prod.fst = parts.map joinSpace) ∧
    joinSpace ((parse_words (buildAll phrases) w).map Prod.fst)
      = joinSpace (normalizeWords w) := by
  obtain ⟨parts, hflat, hne, hmap⟩ :=
    (cover_aux (buildAll phrases).1 (buildAll phrases).2 (normalizeWords w).length
      (normalizeWords w) 0 (by omega)).1 (buildAll phrases).2
  rw [List.drop_zero] at hflat
  have hpw : (parse_words (buildAll phrases) w).map Prod.fst = parts.map joinSpace := by
    rw [parse_words]
    exact hmap
  refine ⟨⟨parts, hflat, hne, hpw⟩, ?_⟩
  rw [hpw, joinSpace_map_flatten parts hne, hflat]

/-- C7: `parse_words` terminates on every input — in this embedding both
scan functions are total, and each committed span consumes at least one
token, so the output has at most as many spans as there are tokens left
(each outer step strictly advances the scan index) — and an input that
normalizes to no tokens yields the empty output sequence. -/
theorem C7_termination_progress :
    (∀ (td : TokenDictionary) (root self : Trie) (tokens : List String) (idx : Nat),
        (parseTokens td root self tokens idx).length ≤ tokens.length - idx) ∧
    (∀ (s : TokenDictionary × Trie) (w : String),
        normalizeWords w = [] → parse_words s w = []) := by
  constructor
  · intro td root self tokens idx
    obtain ⟨parts, hflat, hne, hmap⟩ :=
      (cover_aux td root tokens.length tokens idx (by omega)).1 self
    have hlenmap : (parseTokens td root self tokens idx).length = parts.length := by
      rw [← List.length_map (parseTokens td root self tokens idx) Prod.fst, hmap,
        List.length_map]
    rw [hlenmap]
    calc parts.length ≤ parts.flatten.length := length_le_length_flatten parts hne
      _ = (tokens.drop idx).length := by rw [hflat]
      _ = tokens.length - idx := List.length_drop idx tokens
  · intro s w h
    rw [parse_words, h]
    exact parseTokens_stop s.1 s.2 s.2 [] 0 (by simp)

/-- Witness for C7 at a concrete input: a whitespace-only string normalizes
to no tokens and parses to the empty output. -/
theorem C7_termination_witness :
    normalizeWords "  " = [] ∧ parse_words initState "  " = [] :=
  ⟨by decide, C7_termination_progress.2 initState "  " (by decide)⟩

/-!
A small concrete lexicon used by several witnesses: the phrases `"a"` (tagged
`t = 1`) and `"c"` (tagged `t = 2`).  `exTD`/`exRoot` are the interner and
root produced by building those two phrases on a fresh root.
-/

def exTD : TokenDictionary := ⟨[("a", 0), ("c", 1)], ["a", "c"], 2⟩

def exTrieA : Trie := Trie.mk [] [("t", "1")]

def exTrieC : Trie := Trie.mk [] [("t", "2")]

def exRoot : Trie := Trie.mk [(0, exTrieA), (1, exTrieC)] []

theorem exBuild_eq :
    buildAll [("a", [("t", some "1")]), ("c", [("t", some "2")])] = (exTD, exRoot) :=
  rfl

/-!
A second concrete lexicon used by several witnesses: the single phrase
`"b c"`; the node for the prefix `"b"` is structural with an empty tag map.
-/

def exTDB : TokenDictionary := ⟨[("b", 0), ("c", 1)], ["b", "c"], 2⟩

def exTrieBC : Trie := Trie.mk [] [("t", "3")]

def exTrieB : Trie := Trie.mk [(1, exTrieBC)] []

def exRootB : Trie := Trie.mk [(0, exTrieB)] []

theorem exBuildB_eq : buildAll [("b c", [("t", some "3")])] = (exTDB, exRootB) :=
  rfl

/-- C1 counterexample: with the built lexicon `{"a" ↦ {t:1}, "c" ↦ {t:2}}`,
parsing `"c"` alone matches it from the root with its tags, but parsing
`"a c"` commits the matched span `"a"` (extension stops at position 1) and
then emits `"c"` as an unmatched single token with an empty tag map — the
scan does **not** resume from the root at the stop position, contradicting
the claim that a root path starting at the stop position is matched as a new
span. -/
theorem C1_counterexample :
    parse_words (buildAll [("a", [("t", some "1")]), ("c", [("t", some "2")])]) "a c"
      = [("a", [("t", "1")]), ("c", [])] ∧
    parse_words (buildAll [("a", [("t", some "1")]), ("c", [("t", some "2")])]) "c"
      = [("c", [("t", "2")])] ∧
    [("a", [("t", "1")]), ("c", ([] : Tags))]
      ≠ [("a", [("t", "1")]), ("c", [("t", "2")])] := by
  refine ⟨?_, ?_, by decide⟩
  · show parseTokens exTD exRoot exRoot ["a", "c"] 0 = [("a", [("t", "1")]), ("c", [])]
    rw [parseTokens_match exTD exRoot exRoot exTrieA ["a", "c"] 0 (by decide) rfl,
      getTries_fail exTD exRoot exTrieA ["a", "c"] 0 1 (by decide) rfl,
      parseTokens_fail exTD exRoot exTrieA ["a", "c"] 1 (by decide) rfl,
      parseTokens_stop exTD exRoot exRoot ["a", "c"] 2 (by decide)]
    decide
  · show parseTokens exTD exRoot exRoot ["c"] 0 = [("c", [("t", "2")])]
    rw [parseTokens_match exTD exRoot exRoot exTrieC ["c"] 0 (by decide) rfl,
      getTries_end exTD exRoot exTrieC ["c"] 0 1 (by decide)]
    decide

/-- C1 (amended): whenever a matched span is committed because extension
stopped at position `idx` on a failing edge (rather than at end of input),
the token at `idx` is emitted as a single-token span with an empty tag map,
and the scan resumes from the root only at `idx + 1`; the tokens starting at
`idx` are never re-tried from the root, because the retry at `idx` runs on
the very node whose edge lookup just failed. -/
theorem C1_amended_restart (td : TokenDictionary) (root self : Trie)
    (tokens : List String) (start idx : Nat) (h : idx < tokens.length)
    (hc : lookupChild self (td.get? (tokens.getD idx "")) = none) :
    getTries td root self tokens start idx
      = (joinSpace ((tokens.drop start).take (idx - start)), self.tags)
        :: (tokens.getD idx "", []) :: parseTokens td root root tokens (idx + 1) := by
  rw [getTries_fail td root self tokens start idx h hc,
    parseTokens_fail td root self tokens idx h hc]

/-- Witness for the amended C1 at a concrete input: committing the span `"a"`
is followed by the unmatched single token `"c"` and a root restart at 2. -/
theorem C1_amended_witness :
    getTries exTD exRoot exTrieA ["a", "c"] 0 1 = [("a", [("t", "1")]), ("c", [])] := by
  rw [C1_amended_restart exTD exRoot exTrieA ["a", "c"] 0 1 (by decide) rfl,
    parseTokens_stop exTD exRoot exRoot ["a", "c"] 2 (by decide)]
  decide

/-- C2: when a matched span is committed because the token at `idx` failed to
extend the match (not because input ended), the token at `idx` is emitted as
a single-token span with an empty tag map even when that token is a valid
root edge (hypothesis `hroot`, which the conclusion does not consult), and
only position `idx + 1` is retried from the root. -/
theorem C2_stopped_token_not_rematched (td : TokenDictionary)
    (root self rchild : Trie) (tokens : List String) (start idx : Nat)
    (h : idx < tokens.length)
    (hc : lookupChild self (td.get? (tokens.getD idx "")) = none)
    (_hroot : lookupChild root (td.get? (tokens.getD idx "")) = some rchild) :
    getTries td root self tokens start idx
      = (joinSpace ((tokens.drop start).take (idx - start)), self.tags)
        :: (tokens.getD idx "", []) :: parseTokens td root root tokens (idx + 1) := by
  rw [getTries_fail td root self tokens start idx h hc,
    parseTokens_fail td root self tokens idx h hc]

/-- Witness for C2 at a concrete input: `"c"` is a valid root edge of the
built lexicon, yet after the committed span `"a"` it is emitted unmatched. -/
theorem C2_witness :
    getTries exTD exRoot exTrieA ["a", "c"] 0 1
      = [("a", [("t", "1")]), ("c", [])] ∧ lookupChild exRoot (exTD.get? "c") = some exTrieC := by
  refine ⟨?_, rfl⟩
  rw [C2_stopped_token_not_rematched exTD exRoot exTrieA exTrieC ["a", "c"] 0 1
      (by decide) rfl rfl,
    parseTokens_stop exTD exRoot exRoot ["a", "c"] 2 (by decide)]
  decide

/-- C8: parsing never fails (both scan functions are total in this
embedding); a token whose id is unknown to the interner, or whose id is not a
root edge, is emitted as a single-token span equal to that token with an
empty tag map, after which scanning continues at the next position.  The
interner access on the parse path is `TokenDictionary.get?`, a pure
observation with no dictionary output, so parsing cannot allocate ids. -/
theorem C8_unmatched_fallback (td : TokenDictionary) (root : Trie)
    (tokens : List String) (idx : Nat) (h : idx < tokens.length) :
    (td.get? (tokens.getD idx "") = none →
      parseTokens td root root tokens idx
        = (tokens.getD idx "", []) :: parseTokens td root root tokens (idx + 1)) ∧
    (lookupChild root (td.get? (tokens.getD idx "")) = none →
      parseTokens td root root tokens idx
        = (tokens.getD idx "", []) :: parseTokens td root root tokens (idx + 1)) := by
  constructor
  · intro hu
    exact parseTokens_fail td root root tokens idx h (by rw [hu]; rfl)
  · intro hc
    exact parseTokens_fail td root root tokens idx h hc

/-- Witness for C8 at concrete inputs: the token `"z"` is unknown to the
interner and parses to itself with an empty tag map; the token `"c"` is known
to the interner of the `{"b c"}` lexicon but is not a root edge, and parses
to itself with an empty tag map as well. -/
theorem C8_witness :
    (exTD.get? "z" = none ∧ parseTokens exTD exRoot exRoot ["z"] 0 = [("z", [])]) ∧
    (exTDB.get? "c" = some 1 ∧ lookupChild exRootB (exTDB.get? "c") = none ∧
      parseTokens exTDB exRootB exRootB ["c"] 0 = [("c", [])]) := by
  have hz : parseTokens exTD exRoot exRoot ["z"] 0 = [("z", [])] := by
    rw [(C8_unmatched_fallback exTD exRoot ["z"] 0 (by decide)).1 rfl,
      parseTokens_stop exTD exRoot exRoot ["z"] 1 (by decide)]
    decide
  have hc0 : lookupChild exRootB (exTDB.get? (["c"].getD 0 "")) = none := rfl
  have hc : parseTokens exTDB exRootB exRootB ["c"] 0 = [("c", [])] := by
    rw [(C8_unmatched_fallback exTDB exRootB ["c"] 0 (by decide)).2 hc0,
      parseTokens_stop exTDB exRootB exRootB ["c"] 1 (by decide)]
    decide
  exact ⟨⟨by decide, hz⟩, by decide, hc0, hc⟩

/-!
Tags of an emitted matched span: the head of the scan output at a matching
start position carries exactly the tag map of the node where greedy extension
stops.
-/

theorem head_matched_stop (td : TokenDictionary) (root : Trie)
    (tokens : List String) (idx : Nat) (h : ¬ idx < tokens.length)
    (self : Trie) (start : Nat) (hsi : start ≤ idx) :
    (getTries td root self tokens start idx).head?
      = some (joinSpace
          ((tokens.drop start).take ((idx - start) + matchLen td self tokens idx)),
          (walkNode td self tokens idx).tags) := by
  rw [getTries_end td root self tokens start idx h, matchLen_end td self tokens idx h,
    walkNode_end td self tokens idx h, List.head?_cons,
    List.take_of_length_le (by rw [List.length_drop]; omega)]

theorem head_matched_aux (td : TokenDictionary) (root : Trie) :
    ∀ (n : Nat) (tokens : List String) (idx : Nat), tokens.length - idx ≤ n →
    ∀ (self : Trie) (start : Nat), start ≤ idx →
      (getTries td root self tokens start idx).head?
        = some (joinSpace
            ((tokens.drop start).take ((idx - start) + matchLen td self tokens idx)),
            (walkNode td self tokens idx).tags) := by
  intro n
  induction n with
  | zero =>
    intro tokens idx hle self start hsi
    exact head_matched_stop td root tokens idx (by omega) self start hsi
  | succ n ih =>
    intro tokens idx hle self start hsi
    by_cases h : idx < tokens.length
    · cases hc : lookupChild self (td.get? (tokens.getD idx "")) with
      | some child =>
        rw [getTries_step td root self child tokens start idx h hc,
          matchLen_step td self child tokens idx h hc,
          walkNode_step td self child tokens idx h hc]
        have hrec := ih tokens (idx + 1) (by omega) child start (by omega)
        have harith : (idx + 1 - start) + matchLen td child tokens (idx + 1)
            = (idx - start) + (matchLen td child tokens (idx + 1) + 1) := by omega
        rw [harith] at hrec
        exact hrec
      | none =>
        rw [getTries_fail td root self tokens start idx h hc,
          matchLen_fail td self tokens idx h hc,
          walkNode_fail td self tokens idx h hc, List.head?_cons, Nat.add_zero]
    · exact head_matched_stop td root tokens idx h self start hsi

/-- C5: for a matched span committed by the scan (the match begins at `idx`
with a valid root edge), the attached tag map is exactly the tag map of the
single node at which greedy extension stopped (`walkNode`), read once at that
node — not accumulated along the path and not taken from the deepest node
anywhere in the trie — and the span text is the join of precisely the
`matchLen` extended tokens; nothing in the statement requires that node's tag
map to be non-empty, so a span stopping at an untagged node is emitted as a
matched span with empty tags. -/
theorem C5_tags_at_stop_node (td : TokenDictionary) (root child : Trie)
    (tokens : List String) (idx : Nat) (h : idx < tokens.length)
    (hroot : lookupChild root (td.get? (tokens.getD idx "")) = some child) :
    (parseTokens td root root tokens idx).head?
      = some (joinSpace ((tokens.drop idx).take (matchLen td root tokens idx)),
          (walkNode td root tokens idx).tags) := by
  rw [parseTokens_match td root root child tokens idx h hroot]
  have hrec := head_matched_aux td root tokens.length tokens (idx + 1) (by omega)
    child idx (by omega)
  rw [matchLen_step td root child tokens idx h hroot,
    walkNode_step td root child tokens idx h hroot]
  have harith : (idx + 1 - idx) + matchLen td child tokens (idx + 1)
      = matchLen td child tokens (idx + 1) + 1 := by omega
  rw [harith] at hrec
  exact hrec


/-- Witness for C5 at a concrete input: parsing `["b", "x"]` against the
lexicon `{"b c"}` stops extension at the intermediate node for `"b"`, whose
empty tag map is attached to the emitted matched span. -/
theorem C5_witness :
    (parseTokens exTDB exRootB exRootB ["b", "x"] 0).head? = some ("b", []) ∧
    (walkNode exTDB exRootB ["b", "x"] 0).tags = [] := by
  have hm : matchLen exTDB exRootB ["b", "x"] 0 = 1 := by
    rw [matchLen_step exTDB exRootB exTrieB ["b", "x"] 0 (by decide) rfl,
      matchLen_fail exTDB exTrieB ["b", "x"] 1 (by decide) rfl]
  have hw : walkNode exTDB exRootB ["b", "x"] 0 = exTrieB := by
    rw [walkNode_step exTDB exRootB exTrieB ["b", "x"] 0 (by decide) rfl,
      walkNode_fail exTDB exTrieB ["b", "x"] 1 (by decide) rfl]
  constructor
  · rw [C5_tags_at_stop_node exTDB exRootB exTrieB ["b", "x"] 0 (by decide) rfl, hm, hw]
    decide
  · rw [hw]
    decide

/-!
Build-side infrastructure: characterization of `get_or_add_token_dic`,
interner well-formedness, and the edge-key bound `Bounded`.
-/

theorem mem_of_lookup {α β : Type} [BEq α] [LawfulBEq α] {l : List (α × β)}
    {k : α} {v : β} (h : l.lookup k = some v) : (k, v) ∈ l := by
  induction l with
  | nil => exact absurd h (by simp [List.lookup])
  | cons p rest ih =>
    obtain ⟨k1, v1⟩ := p
    by_cases hk : k = k1
    · subst hk
      rw [lookup_cons_self] at h
      injection h with h
      subst h
      exact List.mem_cons_self _ _
    · rw [lookup_cons_ne (k1, v1) rest k (by simpa using hk)] at h
      exact List.mem_cons_of_mem _ (ih h)

theorem lookup_eq_none_of_forall_ne {α β : Type} [BEq α] [LawfulBEq α]
    (l : List (α × β)) (k : α) (h : ∀ p ∈ l, k ≠ p.1) : l.lookup k = none := by
  induction l with
  | nil => simp [List.lookup]
  | cons p rest ih =>
    rw [lookup_cons_ne p rest k (h p (by simp))]
    exact ih fun q hq => h q (List.mem_cons_of_mem _ hq)

theorem keys_eq_of_val_nodup {α β : Type} (l : List (α × β))
    (hnd : (l.map Prod.snd).Nodup) {p q : α} {j : β}
    (hp : (p, j) ∈ l) (hq : (q, j) ∈ l) : p = q := by
  induction l with
  | nil => exact absurd hp (by simp)
  | cons x rest ih =>
    rw [List.map_cons, List.nodup_cons] at hnd
    rcases List.mem_cons.mp hp with hp1 | hp2 <;>
      rcases List.mem_cons.mp hq with hq1 | hq2
    · rw [← hp1] at hq1
      injection hq1.symm
    · exfalso
      apply hnd.1
      have hmm : j ∈ rest.map Prod.snd := List.mem_map_of_mem Prod.snd hq2
      rw [← hp1]
      exact hmm
    · exfalso
      apply hnd.1
      have hmm : j ∈ rest.map Prod.snd := List.mem_map_of_mem Prod.snd hp2
      rw [← hq1]
      exact hmm
    · exact ih hnd.2 hp2 hq2

theorem goa_present (d : TokenDictionary) (tok : String) (i : Nat)
    (h : d.get? tok = some i) : d.get_or_add_token_dic tok = (i, d) := by
  simp [TokenDictionary.get_or_add_token_dic, h]

theorem goa_absent (d : TokenDictionary) (tok : String)
    (h : d.get? tok = none) :
    d.get_or_add_token_dic tok = (d.next_index, d.setitem tok ()) := by
  simp [TokenDictionary.get_or_add_token_dic, h, setitem_absent_get d tok () h]

theorem goa_get_self (d : TokenDictionary) (tok : String) :
    (d.get_or_add_token_dic tok).2.get? tok = some (d.get_or_add_token_dic tok).1 := by
  cases h : d.get? tok with
  | some i => rw [goa_present d tok i h]; exact h
  | none => rw [goa_absent d tok h]; exact setitem_absent_get d tok () h

theorem goa_get_mono (d : TokenDictionary) (tok x : String) (i : Nat)
    (h : d.get? x = some i) : (d.get_or_add_token_dic tok).2.get? x = some i := by
  cases hg : d.get? tok with
  | some j => rw [goa_present d tok j hg]; exact h
  | none => rw [goa_absent d tok hg]; exact setitem_get_mono d tok x () i h

theorem setitem_next_mono {α : Type} (d : TokenDictionary) (tok : String) (v : α) :
    d.next_index ≤ (d.setitem tok v).next_index := by
  rw [TokenDictionary.setitem]
  by_cases h : (d.get? tok).isSome
  · rw [if_pos h]
  · rw [if_neg h]
    exact Nat.le_succ _

theorem goa_next_mono (d : TokenDictionary) (tok : String) :
    d.next_index ≤ (d.get_or_add_token_dic tok).2.next_index := by
  cases hg : d.get? tok with
  | some j => rw [goa_present d tok j hg]
  | none => rw [goa_absent d tok hg]; exact setitem_next_mono d tok ()

theorem WFdict_init : WFdict ⟨[], [], 0⟩ :=
  ⟨rfl, rfl⟩

theorem setitem_WF {α : Type} (d : TokenDictionary) (tok : String) (v : α)
    (h : WFdict d) : WFdict (d.setitem tok v) := by
  rw [TokenDictionary.setitem]
  by_cases hp : (d.get? tok).isSome
  · rw [if_pos hp]; exact h
  · rw [if_neg hp]
    refine ⟨?_, ?_⟩
    · show (d.entries ++ [(tok, d.next_index)]).map Prod.snd = List.range (d.next_index + 1)
      rw [List.map_append, h.1, List.range_succ]
      rfl
    · show (d.dic_list ++ [tok]).length = d.next_index + 1
      rw [List.length_append, h.2]
      rfl

theorem goa_WF (d : TokenDictionary) (tok : String) (h : WFdict d) :
    WFdict (d.get_or_add_token_dic tok).2 := by
  cases hg : d.get? tok with
  | some j => rw [goa_present d tok j hg]; exact h
  | none => rw [goa_absent d tok hg]; exact setitem_WF d tok () h

theorem get_lt_next (d : TokenDictionary) (tok : String) (i : Nat)
    (hwf : WFdict d) (h : d.get? tok = some i) : i < d.next_index := by
  have hmem : (tok, i) ∈ d.entries := mem_of_lookup h
  have : i ∈ d.entries.map Prod.snd := List.mem_map_of_mem Prod.snd hmem
  rw [hwf.1] at this
  exact List.mem_range.mp this

theorem get_inj (d : TokenDictionary) (p q : String) (j : Nat)
    (hwf : WFdict d) (hp : d.get? p = some j) (hq : d.get? q = some j) : p = q := by
  have hnd : (d.entries.map Prod.snd).Nodup := by
    rw [hwf.1]
    exact List.nodup_range _
  exact keys_eq_of_val_nodup d.entries hnd (mem_of_lookup hp) (mem_of_lookup hq)

theorem goa_fst_lt (d : TokenDictionary) (tok : String) (hwf : WFdict d) :
    (d.get_or_add_token_dic tok).1 < (d.get_or_add_token_dic tok).2.next_index := by
  cases hg : d.get? tok with
  | some j =>
    rw [goa_present d tok j hg]
    exact get_lt_next d tok j hwf hg
  | none =>
    rw [goa_absent d tok hg, TokenDictionary.setitem, if_neg (by simp [hg])]
    exact Nat.lt_succ_self _

theorem Bounded.mono {t : Trie} {n m : Nat} (h : Bounded t n) (hle : n ≤ m) :
    Bounded t m := by
  induction h with
  | mk cs tags k hkeys _hsub ih =>
    exact ⟨cs, tags, m, fun p hp => Nat.lt_of_lt_of_le (hkeys p hp) hle,
      fun p hp => ih p hp hle⟩

theorem Bounded_empty (n : Nat) : Bounded (Trie.mk [] []) n :=
  ⟨[], [], n, by simp, by simp⟩

theorem Bounded_child {t : Trie} {n i : Nat} {c : Trie} (h : Bounded t n)
    (hl : t.children.lookup i = some c) : Bounded c n := by
  cases h with
  | mk cs tags k _hkeys hsub => exact hsub (i, c) (mem_of_lookup hl)

theorem Bounded_lookup_none {t : Trie} {n i : Nat} (h : Bounded t n)
    (hge : n ≤ i) : t.children.lookup i = none := by
  cases hl : t.children.lookup i with
  | none => rfl
  | some c =>
    exfalso
    cases h with
    | mk cs tags k hkeys _hsub =>
      have := hkeys (i, c) (mem_of_lookup hl)
      omega

theorem mem_setChild {cs : List (Nat × Trie)} {i : Nat} {c : Trie}
    {p : Nat × Trie} (h : p ∈ setChild cs i c) : p = (i, c) ∨ p ∈ cs := by
  induction cs with
  | nil =>
    rw [setChild] at h
    rcases List.mem_singleton.mp h with h1
    exact Or.inl h1
  | cons q rest ih =>
    rw [setChild] at h
    by_cases hq : q.1 = i
    · rw [if_pos hq] at h
      rcases List.mem_cons.mp h with h1 | h2
      · exact Or.inl h1
      · exact Or.inr (List.mem_cons_of_mem _ h2)
    · rw [if_neg hq] at h
      rcases List.mem_cons.mp h with h1 | h2
      · exact Or.inr (by rw [h1]; exact List.mem_cons_self _ _)
      · rcases ih h2 with h3 | h4
        · exact Or.inl h3
        · exact Or.inr (List.mem_cons_of_mem _ h4)

theorem setChild_lookup_self (cs : List (Nat × Trie)) (i : Nat) (c : Trie) :
    (setChild cs i c).lookup i = some c := by
  induction cs with
  | nil => rw [setChild]; exact lookup_cons_self i c []
  | cons q rest ih =>
    rw [setChild]
    by_cases hq : q.1 = i
    · rw [if_pos hq]
      exact lookup_cons_self i c rest
    · rw [if_neg hq, lookup_cons_ne q _ i (fun hcontra => hq hcontra.symm)]
      exact ih

theorem setChild_lookup_ne (cs : List (Nat × Trie)) (i j : Nat) (c : Trie)
    (h : j ≠ i) : (setChild cs i c).lookup j = cs.lookup j := by
  induction cs with
  | nil =>
    rw [setChild, lookup_cons_ne (i, c) [] j h]
  | cons q rest ih =>
    rw [setChild]
    by_cases hq : q.1 = i
    · rw [if_pos hq, lookup_cons_ne (i, c) rest j h,
        lookup_cons_ne q rest j (by rw [hq]; exact h)]
    · by_cases hjq : j = q.1
      · rw [if_neg hq]
        obtain ⟨k1, c1⟩ := q
        simp only at hjq
        subst hjq
        rw [lookup_cons_self, lookup_cons_self]
      · rw [if_neg hq, lookup_cons_ne q _ j hjq, lookup_cons_ne q rest j hjq]
        exact ih

theorem Bounded_keys {t : Trie} {n : Nat} (h : Bounded t n) :
    ∀ p ∈ t.children, p.1 < n := by
  cases h with
  | mk cs tags k hkeys _hsub => exact hkeys

theorem Bounded_subtrees {t : Trie} {n : Nat} (h : Bounded t n) :
    ∀ p ∈ t.children, Bounded p.2 n := by
  cases h with
  | mk cs tags k _hkeys hsub => exact hsub

theorem ant_nil (td : TokenDictionary) (t : Trie)
    (tags : List (String × Option String)) :
    addNextTokens td t [] tags = (td, Trie.mk t.children (updateTags t.tags tags)) :=
  rfl

theorem ant_cons (td : TokenDictionary) (t : Trie) (tok : String)
    (rest : List String) (tags : List (String × Option String)) :
    addNextTokens td t (tok :: rest) tags
      = ((addNextTokens (td.get_or_add_token_dic tok).2
            ((lookupChild t (some (td.get_or_add_token_dic tok).1)).getD (Trie.mk [] []))
            rest tags).1,
         Trie.mk (setChild t.children (td.get_or_add_token_dic tok).1
            (addNextTokens (td.get_or_add_token_dic tok).2
              ((lookupChild t (some (td.get_or_add_token_dic tok).1)).getD (Trie.mk [] []))
              rest tags).2) t.tags) :=
  rfl

theorem ant_get_mono (ts : List String) : ∀ (td : TokenDictionary) (t : Trie)
    (tags : List (String × Option String)) (x : String) (i : Nat),
    td.get? x = some i → (addNextTokens td t ts tags).1.get? x = some i := by
  induction ts with
  | nil => intro td t tags x i h; exact h
  | cons tok rest ih =>
    intro td t tags x i h
    rw [ant_cons]
    exact ih _ _ tags x i (goa_get_mono td tok x i h)

theorem ant_next_mono (ts : List String) : ∀ (td : TokenDictionary) (t : Trie)
    (tags : List (String × Option String)),
    td.next_index ≤ (addNextTokens td t ts tags).1.next_index := by
  induction ts with
  | nil => intro td t tags; exact Nat.le_refl _
  | cons tok rest ih =>
    intro td t tags
    rw [ant_cons]
    exact Nat.le_trans (goa_next_mono td tok) (ih _ _ tags)

theorem ant_WF (ts : List String) : ∀ (td : TokenDictionary) (t : Trie)
    (tags : List (String × Option String)),
    WFdict td → WFdict (addNextTokens td t ts tags).1 := by
  induction ts with
  | nil => intro td t tags h; exact h
  | cons tok rest ih =>
    intro td t tags h
    rw [ant_cons]
    exact ih _ _ tags (goa_WF td tok h)

theorem ant_Bounded (ts : List String) : ∀ (td : TokenDictionary) (t : Trie)
    (tags : List (String × Option String)), WFdict td → Bounded t td.next_index →
    Bounded (addNextTokens td t ts tags).2 (addNextTokens td t ts tags).1.next_index := by
  induction ts with
  | nil =>
    intro td t tags _hwf hb
    rw [ant_nil]
    exact ⟨t.children, updateTags t.tags tags, td.next_index,
      Bounded_keys hb, Bounded_subtrees hb⟩
  | cons tok rest ih =>
    intro td t tags hwf hb
    rw [ant_cons]
    have hwfr : WFdict (td.get_or_add_token_dic tok).2 := goa_WF td tok hwf
    have hbchild :
        Bounded ((lookupChild t (some (td.get_or_add_token_dic tok).1)).getD
            (Trie.mk [] [])) (td.get_or_add_token_dic tok).2.next_index := by
      cases hl : lookupChild t (some (td.get_or_add_token_dic tok).1) with
      | some c =>
        have hc : Bounded c td.next_index := Bounded_child hb hl
        exact hc.mono (goa_next_mono td tok)
      | none => exact Bounded_empty _
    have hrec := ih (td.get_or_add_token_dic tok).2 _ tags hwfr hbchild
    have hmono1 : td.next_index
        ≤ (addNextTokens (td.get_or_add_token_dic tok).2
            ((lookupChild t (some (td.get_or_add_token_dic tok).1)).getD (Trie.mk [] []))
            rest tags).1.next_index :=
      Nat.le_trans (goa_next_mono td tok) (ant_next_mono rest _ _ tags)
    have hmono2 : (td.get_or_add_token_dic tok).2.next_index
        ≤ (addNextTokens (td.get_or_add_token_dic tok).2
            ((lookupChild t (some (td.get_or_add_token_dic tok).1)).getD (Trie.mk [] []))
            rest tags).1.next_index :=
      ant_next_mono rest _ _ tags
    refine ⟨_, _, _, ?_, ?_⟩ <;> intro p hp <;> rcases mem_setChild hp with h1 | h2
    · rw [h1]
      exact Nat.lt_of_lt_of_le (goa_fst_lt td tok hwf) hmono2
    · exact Nat.lt_of_lt_of_le (Bounded_keys hb p h2) hmono1
    · rw [h1]
      exact hrec
    · exact (Bounded_subtrees hb p h2).mono hmono1

theorem findNode_cons (td : TokenDictionary) (t : Trie) (p : String)
    (ps : List String) :
    findNode td t (p :: ps)
      = match lookupChild t (td.get? p) with
        | some c => findNode td c ps
        | none => none :=
  rfl

theorem findNode_cons_of_child (td : TokenDictionary) (t : Trie) (p : String)
    (ps : List String) (j : Nat) (c : Trie) (hg : td.get? p = some j)
    (hl : t.children.lookup j = some c) :
    findNode td t (p :: ps) = findNode td c ps := by
  rw [findNode_cons, hg]
  simp only [lookupChild]
  rw [hl]

theorem findNode_cons_of_none_id (td : TokenDictionary) (t : Trie) (p : String)
    (ps : List String) (hg : td.get? p = none) : findNode td t (p :: ps) = none := by
  rw [findNode_cons, hg]
  rfl

theorem findNode_cons_of_no_child (td : TokenDictionary) (t : Trie) (p : String)
    (ps : List String) (j : Nat) (hg : td.get? p = some j)
    (hl : t.children.lookup j = none) : findNode td t (p :: ps) = none := by
  rw [findNode_cons, hg]
  simp only [lookupChild]
  rw [hl]

theorem tagsAtD_of_findNode (td : TokenDictionary) (t : Trie) (ts : List String)
    (nd : Trie) (h : findNode td t ts = some nd) : tagsAtD td t ts = nd.tags := by
  rw [tagsAtD, h]

theorem tagsAtD_of_findNode_none (td : TokenDictionary) (t : Trie)
    (ts : List String) (h : findNode td t ts = none) : tagsAtD td t ts = [] := by
  rw [tagsAtD, h]

theorem tagsAtD_emptyTrie (td : TokenDictionary) (ts : List String) :
    tagsAtD td (Trie.mk [] []) ts = [] := by
  cases ts with
  | nil => rfl
  | cons p rest =>
    cases hg : td.get? p with
    | none => exact tagsAtD_of_findNode_none td _ _ (findNode_cons_of_none_id td _ p rest hg)
    | some j =>
      refine tagsAtD_of_findNode_none td _ _ (findNode_cons_of_no_child td _ p rest j hg ?_)
      rfl

theorem findNode_mono (td td' : TokenDictionary)
    (hmono : ∀ x i, td.get? x = some i → td'.get? x = some i) :
    ∀ (ps : List String) (t nd : Trie),
    findNode td t ps = some nd → findNode td' t ps = some nd := by
  intro ps
  induction ps with
  | nil => intro t nd h; exact h
  | cons p rest ih =>
    intro t nd h
    cases hg : td.get? p with
    | none =>
      rw [findNode_cons_of_none_id td t p rest hg] at h
      exact absurd h (by simp)
    | some j =>
      cases hl : t.children.lookup j with
      | none =>
        rw [findNode_cons_of_no_child td t p rest j hg hl] at h
        exact absurd h (by simp)
      | some c =>
        rw [findNode_cons_of_child td t p rest j c hg hl] at h
        rw [findNode_cons_of_child td' t p rest j c (hmono p j hg) hl]
        exact ih c nd h

/-- Inserting a phrase, then following its token path, lands on a node whose
tag map is the old tag map at that path (empty when the path did not exist)
merged with the supplied tags. -/
theorem insert_terminal (ts : List String) : ∀ (td : TokenDictionary) (t : Trie)
    (tags : List (String × Option String)), WFdict td → Bounded t td.next_index →
    ∃ node, findNode (addNextTokens td t ts tags).1 (addNextTokens td t ts tags).2 ts
        = some node ∧ node.tags = updateTags (tagsAtD td t ts) tags := by
  induction ts with
  | nil =>
    intro td t tags _hwf _hb
    exact ⟨Trie.mk t.children (updateTags t.tags tags), rfl, rfl⟩
  | cons tok rest ih =>
    intro td t tags hwf hb
    rw [ant_cons]
    have hwfr : WFdict (td.get_or_add_token_dic tok).2 := goa_WF td tok hwf
    have hbchild :
        Bounded ((lookupChild t (some (td.get_or_add_token_dic tok).1)).getD
            (Trie.mk [] [])) (td.get_or_add_token_dic tok).2.next_index := by
      cases hl : lookupChild t (some (td.get_or_add_token_dic tok).1) with
      | some c => exact (Bounded_child hb hl).mono (goa_next_mono td tok)
      | none => exact Bounded_empty _
    obtain ⟨node, hfind, htags⟩ := ih (td.get_or_add_token_dic tok).2 _ tags hwfr hbchild
    refine ⟨node, ?_, ?_⟩
    · refine Eq.trans (findNode_cons_of_child _ _ tok rest
        (td.get_or_add_token_dic tok).1 _ ?_ ?_) hfind
      · exact ant_get_mono rest _ _ tags tok _ (goa_get_self td tok)
      · exact setChild_lookup_self t.children _ _
    · rw [htags]
      -- it remains to relate the child-level old tags to the parent-level ones
      congr 1
      cases hg : td.get? tok with
      | some i =>
        have hre : td.get_or_add_token_dic tok = (i, td) := goa_present td tok i hg
        cases hl : t.children.lookup i with
        | some c =>
          have hlc : lookupChild t (some (td.get_or_add_token_dic tok).1) = some c := by
            rw [hre]
            exact hl
          rw [hlc]
          have hfc := findNode_cons_of_child td t tok rest i c hg hl
          rw [tagsAtD, tagsAtD, hfc, hre]
          rfl
        | none =>
          have hlc : lookupChild t (some (td.get_or_add_token_dic tok).1) = none := by
            rw [hre]
            exact hl
          rw [hlc]
          rw [tagsAtD_of_findNode_none td t _ (findNode_cons_of_no_child td t tok rest i hg hl)]
          rw [hre]
          exact tagsAtD_emptyTrie td rest
      | none =>
        have hre : td.get_or_add_token_dic tok = (td.next_index, td.setitem tok ()) :=
          goa_absent td tok hg
        have hl : t.children.lookup (td.get_or_add_token_dic tok).1 = none := by
          rw [hre]
          exact Bounded_lookup_none hb (Nat.le_refl _)
        have hlc : lookupChild t (some (td.get_or_add_token_dic tok).1) = none := hl
        rw [hlc]
        rw [tagsAtD_of_findNode_none td t _ (findNode_cons_of_none_id td t tok rest hg)]
        exact tagsAtD_emptyTrie _ rest

/-- Inserting a phrase leaves the node at every other pre-existing path in
place with its tag map unchanged. -/
theorem insert_frame (ts : List String) : ∀ (ps : List String)
    (td : TokenDictionary) (t : Trie) (tags : List (String × Option String)),
    WFdict td → Bounded t td.next_index → ps ≠ ts → ∀ nd,
    findNode td t ps = some nd →
    ∃ nd', findNode (addNextTokens td t ts tags).1 (addNextTokens td t ts tags).2 ps
        = some nd' ∧ nd'.tags = nd.tags := by
  induction ts with
  | nil =>
    intro ps td t tags _hwf _hb hne nd hfind
    cases ps with
    | nil => exact absurd rfl hne
    | cons p ps' =>
      rw [ant_nil]
      refine ⟨nd, ?_, rfl⟩
      cases hg : td.get? p with
      | none =>
        rw [findNode_cons_of_none_id td t p ps' hg] at hfind
        exact absurd hfind (by simp)
      | some j =>
        cases hl : t.children.lookup j with
        | none =>
          rw [findNode_cons_of_no_child td t p ps' j hg hl] at hfind
          exact absurd hfind (by simp)
        | some c =>
          rw [findNode_cons_of_child td t p ps' j c hg hl] at hfind
          rw [findNode_cons_of_child td (Trie.mk t.children (updateTags t.tags tags))
            p ps' j c hg hl]
          exact hfind
  | cons tok rest ih =>
    intro ps td t tags hwf hb hne nd hfind
    cases ps with
    | nil =>
      have hnd : t = nd := by
        have hfn : findNode td t [] = some t := rfl
        rw [hfn] at hfind
        injection hfind
      rw [ant_cons]
      refine ⟨_, rfl, ?_⟩
      rw [← hnd]
      rfl
    | cons p ps' =>
      cases hg : td.get? p with
      | none =>
        rw [findNode_cons_of_none_id td t p ps' hg] at hfind
        exact absurd hfind (by simp)
      | some j =>
        cases hl : t.children.lookup j with
        | none =>
          rw [findNode_cons_of_no_child td t p ps' j hg hl] at hfind
          exact absurd hfind (by simp)
        | some c =>
          rw [findNode_cons_of_child td t p ps' j c hg hl] at hfind
          by_cases hpt : p = tok
          · subst hpt
            have hre : td.get_or_add_token_dic p = (j, td) := goa_present td p j hg
            have hne' : ps' ≠ rest := by
              intro hcontra
              exact hne (by rw [hcontra])
            obtain ⟨nd', hf', ht'⟩ :=
              ih ps' td c tags hwf (Bounded_child hb hl) hne' nd hfind
            rw [ant_cons, hre]
            refine ⟨nd', ?_, ht'⟩
            show findNode
                (addNextTokens td ((lookupChild t (some j)).getD (Trie.mk [] []))
                  rest tags).1
                (Trie.mk (setChild t.children j
                  (addNextTokens td ((lookupChild t (some j)).getD (Trie.mk [] []))
                    rest tags).2) t.tags) (p :: ps') = some nd'
            have hcgetD : (lookupChild t (some j)).getD (Trie.mk [] []) = c := by
              show (t.children.lookup j).getD (Trie.mk [] []) = c
              rw [hl]
              rfl
            rw [hcgetD]
            exact Eq.trans
              (findNode_cons_of_child _ _ p ps' j _
                (ant_get_mono rest td c tags p j hg)
                (setChild_lookup_self t.children j _))
              hf'
          · have hne_id : j ≠ (td.get_or_add_token_dic tok).1 := by
              cases heq : td.get? tok with
              | some i =>
                rw [goa_present td tok i heq]
                intro hji
                refine hpt (get_inj td p tok j hwf hg ?_)
                rw [heq, hji]
              | none =>
                rw [goa_absent td tok heq]
                have hlt := get_lt_next td p j hwf hg
                show j ≠ td.next_index
                omega
            rw [ant_cons]
            refine ⟨nd, ?_, rfl⟩
            refine Eq.trans (findNode_cons_of_child _ _ p ps' j c ?_ ?_) ?_
            · exact ant_get_mono rest _ _ tags p j (goa_get_mono td tok p j hg)
            · exact Eq.trans
                (setChild_lookup_ne t.children (td.get_or_add_token_dic tok).1 j _ hne_id)
                hl
            · exact findNode_mono td _
                (fun x i hx => ant_get_mono rest _ _ tags x i (goa_get_mono td tok x i hx))
                ps' c nd hfind

theorem buildState_WF (phrases : List (String × List (String × Option String))) :
    ∀ (s : TokenDictionary × Trie), WFdict s.1 → Bounded s.2 s.1.next_index →
    WFdict (phrases.foldl (fun s pw => buildTrie s pw.1 pw.2) s).1 ∧
    Bounded (phrases.foldl (fun s pw => buildTrie s pw.1 pw.2) s).2
      (phrases.foldl (fun s pw => buildTrie s pw.1 pw.2) s).1.next_index := by
  induction phrases with
  | nil => intro s h1 h2; exact ⟨h1, h2⟩
  | cons pw rest ih =>
    intro s h1 h2
    rw [List.foldl_cons]
    exact ih _ (ant_WF _ _ _ _ h1) (ant_Bounded _ _ _ _ h1 h2)

theorem buildAll_WF (phrases : List (String × List (String × Option String))) :
    WFdict (buildAll phrases).1 ∧
    Bounded (buildAll phrases).2 (buildAll phrases).1.next_index :=
  buildState_WF phrases initState WFdict_init (Bounded_empty 0)

/-! Lookup characterization of the tag-merge operations. -/

theorem lookup_not_mem_keys (m : Tags) (k : String) (h : k ∉ m.map Prod.fst) :
    m.lookup k = none :=
  lookup_eq_none_of_forall_ne m k fun p hp he =>
    h (by rw [he]; exact List.mem_map_of_mem Prod.fst hp)

theorem eraseTag_lookup_self (m : Tags) (k : String)
    (hnd : (m.map Prod.fst).Nodup) : (eraseTag m k).lookup k = none := by
  induction m with
  | nil => simp [eraseTag, List.lookup]
  | cons p rest ih =>
    rw [List.map_cons, List.nodup_cons] at hnd
    rw [eraseTag]
    by_cases hp : p.1 = k
    · rw [if_pos hp]
      apply lookup_not_mem_keys
      rw [← hp]
      exact hnd.1
    · rw [if_neg hp, lookup_cons_ne p _ k (fun he => hp he.symm)]
      exact ih hnd.2

theorem eraseTag_not_mem (m : Tags) (k : String) (h : k ∉ m.map Prod.fst) :
    eraseTag m k = m := by
  induction m with
  | nil => rfl
  | cons p rest ih =>
    rw [List.map_cons, List.mem_cons] at h
    push_neg at h
    rw [eraseTag, if_neg (fun he => h.1 he.symm), ih h.2]

theorem setTag_lookup_self (m : Tags) (k v : String) :
    (setTag m k v).lookup k = some v := by
  induction m with
  | nil => rw [setTag]; exact lookup_cons_self k v []
  | cons p rest ih =>
    rw [setTag]
    by_cases hp : p.1 = k
    · rw [if_pos hp]
      exact lookup_cons_self k v rest
    · rw [if_neg hp, lookup_cons_ne p _ k (fun he => hp he.symm)]
      exact ih

theorem setTag_lookup_ne (m : Tags) (k v key : String) (h : key ≠ k) :
    (setTag m k v).lookup key = m.lookup key := by
  induction m with
  | nil => rw [setTag, lookup_cons_ne (k, v) [] key h]
  | cons p rest ih =>
    obtain ⟨p1, p2⟩ := p
    rw [setTag]
    by_cases hp : (p1, p2).1 = k
    · rw [if_pos hp, lookup_cons_ne (k, v) rest key h,
        lookup_cons_ne (p1, p2) rest key (by rw [hp]; exact h)]
    · by_cases hkp : key = p1
      · subst hkp
        rw [if_neg hp, lookup_cons_self, lookup_cons_self]
      · rw [if_neg hp, lookup_cons_ne (p1, p2) _ key hkp,
          lookup_cons_ne (p1, p2) rest key hkp]
        exact ih

theorem eraseTag_lookup_ne (m : Tags) (k key : String) (h : key ≠ k) :
    (eraseTag m k).lookup key = m.lookup key := by
  induction m with
  | nil => rfl
  | cons p rest ih =>
    obtain ⟨p1, p2⟩ := p
    rw [eraseTag]
    by_cases hp : (p1, p2).1 = k
    · rw [if_pos hp, lookup_cons_ne (p1, p2) rest key (by
        intro he
        simp only at he hp
        rw [he, hp] at h
        exact h rfl)]
    · by_cases hkp : key = p1
      · subst hkp
        rw [if_neg hp, lookup_cons_self, lookup_cons_self]
      · rw [if_neg hp, lookup_cons_ne (p1, p2) _ key hkp,
          lookup_cons_ne (p1, p2) rest key hkp]
        exact ih

theorem updateTags_lookup_not_mem (nt : List (String × Option String)) :
    ∀ (m : Tags) (k : String), k ∉ nt.map Prod.fst →
    (updateTags m nt).lookup k = m.lookup k := by
  induction nt with
  | nil => intro m k _h; rfl
  | cons q nts ih =>
    intro m k h
    rw [List.map_cons, List.mem_cons] at h
    push_neg at h
    have hstep : updateTags m (q :: nts)
        = updateTags (match q.2 with
            | none => eraseTag m q.1
            | some v => setTag m q.1 v) nts := rfl
    rw [hstep, ih _ k h.2]
    cases hq2 : q.2 with
    | none => exact eraseTag_lookup_ne m q.1 k h.1
    | some v => exact setTag_lookup_ne m q.1 v k h.1

/-- C4: inserting any phrase `P` into a fresh trie with tags `{a: "x"}` and
then inserting `P` again with `{a: null, b: "y"}` leaves the terminal node's
tag map exactly `{b: "y"}`; and in general, over `_update_tags`: a `null`
value removes the key (a no-op when the key is absent), a non-null value
overwrites, and keys not mentioned in the supplied tags keep their prior
binding. -/
theorem C4_tag_merge (P : String) :
    tagsAtD (buildTrie (buildTrie initState P [("a", some "x")]) P
          [("a", none), ("b", some "y")]).1
        (buildTrie (buildTrie initState P [("a", some "x")]) P
          [("a", none), ("b", some "y")]).2
        (normalizeWords P) = [("b", "y")] ∧
    (∀ (m : Tags) (k : String), (m.map Prod.fst).Nodup →
        (updateTags m [(k, none)]).lookup k = none) ∧
    (∀ (m : Tags) (k : String), k ∉ m.map Prod.fst → updateTags m [(k, none)] = m) ∧
    (∀ (m : Tags) (k v : String), (updateTags m [(k, some v)]).lookup k = some v) ∧
    (∀ (m : Tags) (nt : List (String × Option String)) (k : String),
        k ∉ nt.map Prod.fst → (updateTags m nt).lookup k = m.lookup k) := by
  refine ⟨?_, ?_, ?_, ?_, ?_⟩
  · obtain ⟨n1, hf1, ht1⟩ := insert_terminal (normalizeWords P) initState.1 initState.2
      [("a", some "x")] WFdict_init (Bounded_empty 0)
    have h0 : tagsAtD initState.1 initState.2 (normalizeWords P) = [] :=
      tagsAtD_emptyTrie initState.1 (normalizeWords P)
    have ht1' : n1.tags = [("a", "x")] := by
      rw [ht1, h0]
      decide
    have hf1' : findNode (buildTrie initState P [("a", some "x")]).1
        (buildTrie initState P [("a", some "x")]).2 (normalizeWords P) = some n1 := hf1
    have hold1 : tagsAtD (buildTrie initState P [("a", some "x")]).1
        (buildTrie initState P [("a", some "x")]).2 (normalizeWords P) = [("a", "x")] := by
      rw [tagsAtD_of_findNode _ _ _ n1 hf1', ht1']
    obtain ⟨n2, hf2, ht2⟩ := insert_terminal (normalizeWords P)
      (buildTrie initState P [("a", some "x")]).1
      (buildTrie initState P [("a", some "x")]).2
      [("a", none), ("b", some "y")]
      (ant_WF (normalizeWords P) initState.1 initState.2 [("a", some "x")] WFdict_init)
      (ant_Bounded (normalizeWords P) initState.1 initState.2 [("a", some "x")]
        WFdict_init (Bounded_empty 0))
    have ht2' : n2.tags = [("b", "y")] := by
      rw [ht2, hold1]
      decide
    have hf2' : findNode
        (buildTrie (buildTrie initState P [("a", some "x")]) P
          [("a", none), ("b", some "y")]).1
        (buildTrie (buildTrie initState P [("a", some "x")]) P
          [("a", none), ("b", some "y")]).2 (normalizeWords P) = some n2 := hf2
    rw [tagsAtD_of_findNode _ _ _ n2 hf2', ht2']
  · intro m k hnd
    exact eraseTag_lookup_self m k hnd
  · intro m k h
    exact eraseTag_not_mem m k h
  · intro m k v
    exact setTag_lookup_self m k v
  · intro m nt k h
    exact updateTags_lookup_not_mem nt m k h

/-- Witness for C4 at concrete inputs: the phrase `"p q"` and concrete tag
maps for each part of the merge law. -/
theorem C4_witness :
    tagsAtD (buildTrie (buildTrie initState "p q" [("a", some "x")]) "p q"
          [("a", none), ("b", some "y")]).1
        (buildTrie (buildTrie initState "p q" [("a", some "x")]) "p q"
          [("a", none), ("b", some "y")]).2
        (normalizeWords "p q") = [("b", "y")] ∧
    (updateTags [("c", "z")] [("c", none)]).lookup "c" = none ∧
    updateTags [("c", "z")] [("q", none)] = [("c", "z")] ∧
    (updateTags [("c", "z")] [("c", some "w")]).lookup "c" = some "w" ∧
    (updateTags [("c", "z")] [("q", some "w")]).lookup "c" = [("c", "z")].lookup "c" :=
  ⟨(C4_tag_merge "p q").1,
   (C4_tag_merge "p q").2.1 [("c", "z")] "c" (by decide),
   (C4_tag_merge "p q").2.2.1 [("c", "z")] "q" (by decide),
   (C4_tag_merge "p q").2.2.2.1 [("c", "z")] "c" "w",
   (C4_tag_merge "p q").2.2.2.2 [("c", "z")] [("q", some "w")] "c" (by decide)⟩

/-- C9: `build_trie` always succeeds (the embedded insertion is total) and
has a bounded frame: every node reachable at a path other than the inserted
phrase's normalized token path is still reachable afterwards with its tag map
unchanged (the interner may grow and new nodes may be created); inserting the
empty phrase leaves the interner and the children untouched and merges the
supplied tags into the root node's own tag map. -/
theorem C9_insert_bounded_frame :
    (∀ (s : TokenDictionary × Trie) (w : String)
        (tags : List (String × Option String)) (ps : List String),
        WFdict s.1 → Bounded s.2 s.1.next_index → ps ≠ normalizeWords w →
        ∀ nd, findNode s.1 s.2 ps = some nd →
        ∃ nd', findNode (buildTrie s w tags).1 (buildTrie s w tags).2 ps = some nd'
            ∧ nd'.tags = nd.tags) ∧
    (∀ (s : TokenDictionary × Trie) (tags : List (String × Option String)),
        buildTrie s "" tags = (s.1, Trie.mk s.2.children (updateTags s.2.tags tags))) := by
  constructor
  · intro s w tags ps hwf hb hne nd hfind
    exact insert_frame (normalizeWords w) ps s.1 s.2 tags hwf hb hne nd hfind
  · intro s tags
    rfl

/-- Witness for C9 at a concrete input: inserting the new phrase `"z"` into
the built lexicon `{"b c"}` leaves the node at path `["b"]` in place with its
tags unchanged, and inserting the empty phrase merges tags into the root. -/
theorem C9_witness :
    (∃ nd', findNode (buildTrie (exTDB, exRootB) "z" [("q", some "1")]).1
        (buildTrie (exTDB, exRootB) "z" [("q", some "1")]).2 ["b"] = some nd'
        ∧ nd'.tags = exTrieB.tags) ∧
    buildTrie (exTDB, exRootB) "" [("q", some "1")]
      = (exTDB, Trie.mk exRootB.children (updateTags exRootB.tags [("q", some "1")])) := by
  constructor
  · refine C9_insert_bounded_frame.1 (exTDB, exRootB) "z" [("q", some "1")] ["b"]
      ⟨by decide, by decide⟩ ?_ (by decide) exTrieB rfl
    have h := (buildAll_WF [("b c", [("t", some "3")])]).2
    rw [exBuildB_eq] at h
    exact h
  · exact C9_insert_bounded_frame.2 (exTDB, exRootB) [("q", some "1")]

/-! Interning: idempotence and dense first-seen ids. -/

theorem add_tokens_nil (d : TokenDictionary) : d.add_tokens [] = d :=
  rfl

theorem add_tokens_cons (d : TokenDictionary) (tok : String) (ts : List String) :
    d.add_tokens (tok :: ts) = (d.setitem tok ()).add_tokens ts :=
  rfl

theorem add_tokens_get_mono (ts : List String) : ∀ (d : TokenDictionary)
    (x : String) (i : Nat), d.get? x = some i →
    (d.add_tokens ts).get? x = some i := by
  induction ts with
  | nil => intro d x i h; exact h
  | cons tok rest ih =>
    intro d x i h
    rw [add_tokens_cons]
    exact ih _ x i (setitem_get_mono d tok x () i h)

theorem dense_aux (ts : List String) : ∀ (d : TokenDictionary), ts.Nodup →
    (∀ tok ∈ ts, d.get? tok = none) → ∀ (i : Nat) (h : i < ts.length),
    (d.add_tokens ts).get? (ts.get ⟨i, h⟩) = some (d.next_index + i) := by
  induction ts with
  | nil => intro d _hnd _habs i h; exact absurd h (by simp)
  | cons tok rest ih =>
    intro d hnd habs i h
    rw [add_tokens_cons]
    have habs_tok : d.get? tok = none := habs tok (by simp)
    have hset_next : (d.setitem tok ()).next_index = d.next_index + 1 := by
      rw [TokenDictionary.setitem, if_neg (by simp [habs_tok])]
    cases i with
    | zero =>
      show (TokenDictionary.add_tokens (d.setitem tok ()) rest).get? tok
        = some (d.next_index + 0)
      rw [Nat.add_zero]
      exact add_tokens_get_mono rest _ tok _ (setitem_absent_get d tok () habs_tok)
    | succ i' =>
      rw [List.nodup_cons] at hnd
      have habs' : ∀ t' ∈ rest, (d.setitem tok ()).get? t' = none := by
        intro t' ht'
        have hne : t' ≠ tok := fun he => hnd.1 (he ▸ ht')
        rw [setitem_get_other d tok t' () hne]
        exact habs t' (List.mem_cons_of_mem _ ht')
      have hi' : i' < rest.length := Nat.lt_of_succ_lt_succ (by simpa using h)
      have hrec := ih (d.setitem tok ()) hnd.2 habs' i' hi'
      rw [hset_next,
        show d.next_index + 1 + i' = d.next_index + (i' + 1) from by omega] at hrec
      exact hrec

/-- C6: interning is idempotent (a second `get_or_add_token_dic` on the same
token returns the same id and leaves the interner unchanged); interning `N`
distinct tokens into a fresh interner assigns exactly the ids `0, …, N-1` in
first-seen order; the reverse list's length equals the next-free-id counter
initially and after every `__setitem__`. -/
theorem C6_interning_dense :
    (∀ (d : TokenDictionary) (tok : String),
        (d.get_or_add_token_dic tok).2.get_or_add_token_dic tok
          = ((d.get_or_add_token_dic tok).1, (d.get_or_add_token_dic tok).2)) ∧
    (∀ (ts : List String), ts.Nodup → ∀ (i : Nat) (h : i < ts.length),
        (TokenDictionary.add_tokens ⟨[], [], 0⟩ ts).get? (ts.get ⟨i, h⟩) = some i) ∧
    ((⟨[], [], 0⟩ : TokenDictionary).dic_list.length
        = (⟨[], [], 0⟩ : TokenDictionary).next_index) ∧
    (∀ {α : Type} (d : TokenDictionary) (tok : String) (v : α),
        d.dic_list.length = d.next_index →
        (d.setitem tok v).dic_list.length = (d.setitem tok v).next_index) := by
  refine ⟨?_, ?_, rfl, ?_⟩
  · intro d tok
    exact goa_present _ tok _ (goa_get_self d tok)
  · intro ts hnd i h
    have hrec := dense_aux ts ⟨[], [], 0⟩ hnd (fun tok _ => rfl) i h
    rw [Nat.zero_add] at hrec
    exact hrec
  · intro α d tok v h
    rw [TokenDictionary.setitem]
    by_cases hp : (d.get? tok).isSome
    · rw [if_pos hp]
      exact h
    · rw [if_neg hp]
      show (d.dic_list ++ [tok]).length = d.next_index + 1
      rw [List.length_append, h]
      rfl

/-- Witness for C6 at concrete inputs: the three tokens of the source's own
self-test, interned in order. -/
theorem C6_witness :
    ((⟨[], [], 0⟩ : TokenDictionary).get_or_add_token_dic
        "breast").2.get_or_add_token_dic "breast"
      = (((⟨[], [], 0⟩ : TokenDictionary).get_or_add_token_dic "breast").1,
         ((⟨[], [], 0⟩ : TokenDictionary).get_or_add_token_dic "breast").2) ∧
    (TokenDictionary.add_tokens ⟨[], [], 0⟩
        ["breast", "cancer", "treatment"]).get? "cancer" = some 1 ∧
    ((⟨[("x", 0)], ["x"], 1⟩ : TokenDictionary).setitem "y" true).dic_list.length
      = ((⟨[("x", 0)], ["x"], 1⟩ : TokenDictionary).setitem "y" true).next_index :=
  ⟨C6_interning_dense.1 ⟨[], [], 0⟩ "breast",
   C6_interning_dense.2.1 ["breast", "cancer", "treatment"] (by decide) 1 (by decide),
   C6_interning_dense.2.2.2 ⟨[("x", 0)], ["x"], 1⟩ "y" true (by decide)⟩

/-- C10: `__setitem__` ignores the supplied value entirely: on an unseen
token it records the current next-free index as the id (whatever value was
passed), on an already-seen token it is a complete no-op, so an existing id
can never be changed through assignment. -/
theorem C10_setitem_ignores_value :
    (∀ {α : Type} (d : TokenDictionary) (tok : String) (v : α),
        (d.get? tok).isSome → d.setitem tok v = d) ∧
    (∀ {α : Type} (d : TokenDictionary) (tok : String) (v : α),
        d.get? tok = none →
        (d.setitem tok v).get? tok = some d.next_index ∧
        (d.setitem tok v).entries = d.entries ++ [(tok, d.next_index)]) ∧
    (∀ {α β : Type} (d : TokenDictionary) (tok : String) (v : α) (w : β),
        d.setitem tok v = d.setitem tok w) ∧
    (∀ {α : Type} (d : TokenDictionary) (tok : String) (v : α) (i : Nat),
        d.get? tok = some i → (d.setitem tok v).get? tok = some i) := by
  refine ⟨?_, ?_, ?_, ?_⟩
  · intro α d tok v h
    exact setitem_present d tok v h
  · intro α d tok v h
    refine ⟨setitem_absent_get d tok v h, ?_⟩
    rw [TokenDictionary.setitem, if_neg (by simp [h])]
  · intro α β d tok v w
    rfl
  · intro α d tok v i h
    rw [setitem_present d tok v (by simp [h])]
    exact h

/-- Witness for C10 at concrete inputs: assigning to a present token with a
boolean value (as the source's self-test does) is a no-op, and the value is
ignored on absent tokens as well. -/
theorem C10_witness :
    (⟨[("x", 0)], ["x"], 1⟩ : TokenDictionary).setitem "x" true
      = (⟨[("x", 0)], ["x"], 1⟩ : TokenDictionary) ∧
    ((⟨[], [], 0⟩ : TokenDictionary).setitem "y" true).get? "y" = some 0 ∧
    (⟨[("x", 0)], ["x"], 1⟩ : TokenDictionary).setitem "x" true
      = (⟨[("x", 0)], ["x"], 1⟩ : TokenDictionary).setitem "x" (42 : Nat) ∧
    ((⟨[("x", 0)], ["x"], 1⟩ : TokenDictionary).setitem "x" true).get? "x" = some 0 :=
  ⟨C10_setitem_ignores_value.1 _ "x" true (by decide),
   (C10_setitem_ignores_value.2.1 _ "y" true (by decide)).1,
   C10_setitem_ignores_value.2.2.1 _ "x" true (42 : Nat),
   C10_setitem_ignores_value.2.2.2 _ "x" true 0 (by decide)⟩
